import Mathlib

/-!
Shallow embedding of the stagiaire string interner (src/src/lib.rs).

The Rust library keeps a process-wide pool `STRINGS : Mutex<HashSet<&'static str>>`
of interned strings and a `Symbol` type wrapping a `&'static str` into that pool.
We model the pool as the list of stored strings in insertion order; the list
index of an entry models its storage address (distinct entries of the pool live
at distinct, non-overlapping addresses).  A `&'static str` reference is a fat
pointer; we model it as the storage address it points to together with the
pointed-to content.  The global mutable pool becomes explicit state passing:
operations that touch the pool take it as an argument and return the updated
pool.
-/

set_option autoImplicit false

namespace Stagiaire

/-- The contents of `STRINGS`: all strings interned so far, in insertion order.
The index of an entry models its storage address. -/
abbrev Pool := List String

/-- Wrapper over a reference to an interned string (`pub struct Symbol`).
The wrapped `&'static str` is modelled as the storage address it points to
(`addr`, mirroring `as_ptr()`) plus the pointed-to content. -/
structure Symbol where
  addr : Nat
  content : String
deriving DecidableEq, Repr

/-- `g.get(str)` on the `HashSet`: the address of the first stored string whose
content equals `str`, if any.  (The pool invariant says there is at most one.) -/
def lookup : Pool → String → Option Nat
  | [], _ => none
  | t :: ts, s => if t = s then some 0 else (lookup ts s).map (fun i => i + 1)

/-- `fn intern(str: &str) -> &'static str`.  If a stored string with equal
content exists, return the reference to that existing entry (its address and
its stored content); otherwise leak a fresh copy of `str`, insert it, and
return the reference to it. -/
def intern (pool : Pool) (s : String) : Pool × Symbol :=
  match lookup pool s with
  | some i => (pool, { addr := i, content := pool.getD i "" })
  | none => (pool ++ [s], { addr := pool.length, content := s })

/-- `Symbol::new`: interns `s` and wraps the resulting reference. -/
def Symbol.new (pool : Pool) (s : String) : Pool × Symbol :=
  intern pool s

/-- `Symbol::as_str`: returns the string pointed to by this symbol. -/
def Symbol.as_str (sym : Symbol) : String :=
  sym.content

/-- `impl PartialEq for Symbol`: `self.inner.as_ptr() == other.inner.as_ptr()`,
pointer (storage address) equality, never content comparison. -/
def Symbol.eq (a b : Symbol) : Bool :=
  a.addr == b.addr

/-- `impl PartialEq<str> for Symbol`: `self.inner[..] == other[..]`, content
comparison. -/
def Symbol.eqStr (a : Symbol) (other : String) : Bool :=
  a.content == other

/-- `impl PartialEq<Symbol> for str`: `self[..] == other.inner[..]`. -/
def strEqSymbol (a : String) (other : Symbol) : Bool :=
  a == other.content

/-- `impl PartialEq<Symbol> for &'a str`: `self[..] == other.inner[..]`. -/
def strRefEqSymbol (a : String) (other : Symbol) : Bool :=
  a == other.content

/-- `impl PartialEq<&'a str> for Symbol`: `self.inner[..] == other[..]`. -/
def Symbol.eqStrRef (a : Symbol) (other : String) : Bool :=
  a.content == other

/-- `derive Copy` on `Symbol`: copying is a bitwise, shallow duplication of the
wrapped reference.  It takes no pool argument because it never touches the pool
and allocates nothing. -/
def Symbol.copy (sym : Symbol) : Symbol :=
  sym

/-! ### Hashing

A hasher state is modelled as the transcript of bytes written to it so far;
the finished hash value is the transcript itself (a canonical injective
hasher standing in for `DefaultHasher`). -/

/-- The transcript of bytes written to a hasher. -/
abbrev HasherState := List Nat

/-- The eight little-endian bytes written by hashing a 64-bit pointer value. -/
def usizeBytes (n : Nat) : List Nat :=
  [n % 256, n / 2 ^ 8 % 256, n / 2 ^ 16 % 256, n / 2 ^ 24 % 256,
   n / 2 ^ 32 % 256, n / 2 ^ 40 % 256, n / 2 ^ 48 % 256, n / 2 ^ 56 % 256]

/-- Hashing a pointer value: writes its eight address bytes. -/
def hashUsize (state : HasherState) (n : Nat) : HasherState :=
  state ++ usizeBytes n

/-- `impl Hash for str`: writes the bytes of the string and then the
terminator byte `0xff`.  (Bytes are modelled as the code points of the
characters; on ASCII content this coincides with the UTF-8 bytes.) -/
def hashStr (state : HasherState) (s : String) : HasherState :=
  state ++ s.data.map (fun c => c.toNat) ++ [255]

/-- `impl Hash for Symbol`: `self.inner.as_ptr().hash(state)`; hashes the
wrapped pointer, not the pointed-to content. -/
def Symbol.hash (state : HasherState) (sym : Symbol) : HasherState :=
  hashUsize state sym.addr

/-- Modelled from the spec: the `Display` implementation for `Symbol` is not in
src/ (it is only exercised by `tests/api_test.rs`, `symbol_can_be_displayed`);
per the spec, rendering a Symbol as text for display returns its referenced
content. -/
def Symbol.display (sym : Symbol) : String :=
  sym.as_str

/-! ### Lemmas about `lookup` -/

theorem lookup_eq_none {pool : Pool} {s : String} :
    lookup pool s = none ↔ s ∉ pool := by
  induction pool with
  | nil => simp [lookup]
  | cons t ts ih =>
    simp only [lookup]
    by_cases h : t = s
    · subst h
      simp
    · simp only [if_neg h, Option.map_eq_none', ih, List.mem_cons]
      constructor
      · intro hn hmem
        rcases hmem with rfl | hmem
        · exact h rfl
        · exact hn hmem
      · intro hn hm
        exact hn (Or.inr hm)

theorem lookup_lt_length {pool : Pool} {s : String} {i : Nat}
    (h : lookup pool s = some i) : i < pool.length := by
  induction pool generalizing i with
  | nil => simp [lookup] at h
  | cons t ts ih =>
    simp only [lookup] at h
    by_cases ht : t = s
    · rw [if_pos ht] at h
      cases h
      simp
    · rw [if_neg ht] at h
      obtain ⟨j, hj, rfl⟩ := Option.map_eq_some'.mp h
      have := ih hj
      simp only [List.length_cons]
      omega

theorem lookup_getD {pool : Pool} {s : String} {i : Nat}
    (h : lookup pool s = some i) : pool.getD i "" = s := by
  induction pool generalizing i with
  | nil => simp [lookup] at h
  | cons t ts ih =>
    simp only [lookup] at h
    by_cases ht : t = s
    · rw [if_pos ht] at h
      cases h
      simpa using ht
    · rw [if_neg ht] at h
      obtain ⟨j, hj, rfl⟩ := Option.map_eq_some'.mp h
      simpa using ih hj

theorem lookup_append_self {pool : Pool} {s : String}
    (h : lookup pool s = none) : lookup (pool ++ [s]) s = some pool.length := by
  induction pool with
  | nil => simp [lookup]
  | cons t ts ih =>
    simp only [lookup] at h
    by_cases ht : t = s
    · rw [if_pos ht] at h
      exact absurd h (by simp)
    · rw [if_neg ht] at h
      have h2 := Option.map_eq_none'.mp h
      simp [List.cons_append, lookup, if_neg ht, ih h2]

/-! ### Lemmas about `intern` -/

/-- The returned reference always reads back as the interned string. -/
theorem intern_content (pool : Pool) (s : String) :
    ((intern pool s).2).content = s := by
  unfold intern
  cases h : lookup pool s with
  | none => rfl
  | some i => simpa using lookup_getD h

/-- The returned reference points into the resulting pool. -/
theorem intern_addr_lt (pool : Pool) (s : String) :
    ((intern pool s).2).addr < ((intern pool s).1).length := by
  unfold intern
  cases h : lookup pool s with
  | none => simp
  | some i => simpa using lookup_lt_length h

/-- The entry at the returned address of the resulting pool is the interned
string. -/
theorem intern_stored (pool : Pool) (s : String) :
    ((intern pool s).1).getD ((intern pool s).2).addr "" = s := by
  unfold intern
  cases h : lookup pool s with
  | none => simp
  | some i => simpa using lookup_getD h

/-- `intern` only ever appends to the pool: existing entries are never removed
or relocated. -/
theorem intern_extendsPool (pool : Pool) (s : String) :
    ∃ rest, (intern pool s).1 = pool ++ rest := by
  unfold intern
  cases h : lookup pool s with
  | none => exact ⟨[s], rfl⟩
  | some i => exact ⟨[], by simp⟩

/-- After interning `s`, looking `s` up finds exactly the returned address. -/
theorem intern_lookup (pool : Pool) (s : String) :
    lookup ((intern pool s).1) s = some ((intern pool s).2).addr := by
  unfold intern
  cases h : lookup pool s with
  | none => simpa using lookup_append_self h
  | some i => simpa using h

/-- When the pool already holds `s`, `intern` leaves it unchanged. -/
theorem intern_fst_of_mem {pool : Pool} {s : String} (h : s ∈ pool) :
    (intern pool s).1 = pool := by
  unfold intern
  cases hl : lookup pool s with
  | none => exact absurd (lookup_eq_none.mp hl) (by simpa using h)
  | some i => rfl

/-- When the pool does not hold `s`, `intern` appends exactly one entry. -/
theorem intern_fst_of_not_mem {pool : Pool} {s : String} (h : s ∉ pool) :
    (intern pool s).1 = pool ++ [s] := by
  unfold intern
  rw [lookup_eq_none.mpr h]

/-- Addresses under `intern` are stable: the entry a previously returned
reference points to keeps its address and content in every later pool. -/
theorem intern_preserves_getD (pool : Pool) (s : String) {i : Nat}
    (h : i < pool.length) :
    ((intern pool s).1).getD i "" = pool.getD i "" := by
  obtain ⟨rest, hrest⟩ := intern_extendsPool pool s
  rw [hrest, List.getD_append _ _ _ _ h]

theorem intern_of_lookup_some {pool : Pool} {s : String} {i : Nat}
    (h : lookup pool s = some i) :
    intern pool s = (pool, { addr := i, content := pool.getD i "" }) := by
  unfold intern
  rw [h]

theorem intern_of_lookup_none {pool : Pool} {s : String}
    (h : lookup pool s = none) :
    intern pool s = (pool ++ [s], { addr := pool.length, content := s }) := by
  unfold intern
  rw [h]

theorem Symbol.ext_fields {s t : Symbol} (h1 : s.addr = t.addr)
    (h2 : s.content = t.content) : s = t := by
  cases s
  cases t
  cases h1
  cases h2
  rfl

/-- Re-interning a string already interned returns the very same reference and
leaves the pool untouched. -/
theorem intern_twice_same (pool : Pool) (a : String) :
    intern ((intern pool a).1) a = ((intern pool a).1, (intern pool a).2) := by
  rw [intern_of_lookup_some (intern_lookup pool a), intern_stored pool a]
  exact congrArg (Prod.mk _)
    (Symbol.ext_fields rfl (intern_content pool a).symm)

/-- Same storage address after two (sequential) interning calls forces equal
content. -/
theorem intern_addr_inj (pool : Pool) (a b : String)
    (h : ((intern ((intern pool a).1) b).2).addr = ((intern pool a).2).addr) :
    a = b := by
  have h1 := intern_stored pool a
  have h2 := intern_stored ((intern pool a).1) b
  have h3 := intern_preserves_getD ((intern pool a).1) b (intern_addr_lt pool a)
  rw [h, h3, h1] at h2
  exact h2

/-! ### Claim theorems -/

/-- C1: For every two text values `a` and `b`, the symbols `Symbol::new(a)`
and `Symbol::new(b)` (created sequentially against any pool) are
identity-equal — their wrapped references point to the same storage address —
iff `a = b` by content; interning equal content twice returns the very same
reference, and unequal content yields distinct references. -/
theorem new_identity_iff_content_eq (pool : Pool) (a b : String) :
    (Symbol.eq ((Symbol.new pool a).2)
        ((Symbol.new ((Symbol.new pool a).1) b).2) = true ↔ a = b) ∧
    (a = b →
      (Symbol.new ((Symbol.new pool a).1) b).2 = (Symbol.new pool a).2) := by
  simp only [Symbol.new]
  constructor
  · simp only [Symbol.eq, beq_iff_eq]
    constructor
    · intro h
      exact intern_addr_inj pool a b h.symm
    · rintro rfl
      rw [intern_twice_same pool a]
  · rintro rfl
    rw [intern_twice_same pool a]

/-- Witness for C1 at a concrete input. -/
theorem new_identity_iff_content_eq_witness :
    Symbol.eq ((Symbol.new ([] : Pool) "foo").2)
      ((Symbol.new ((Symbol.new ([] : Pool) "foo").1) "foo").2) = true :=
  ((new_identity_iff_content_eq [] "foo" "foo").1).mpr rfl

/-- C2: For every text value `a` and any starting pool, reading back the text
of a freshly created symbol round-trips: `Symbol::new(a).as_str() == a`. -/
theorem new_as_str_roundtrip (pool : Pool) (a : String) :
    ((Symbol.new pool a).2).as_str = a :=
  intern_content pool a

/-- C3: Symbol-to-Symbol equality holds iff the storage addresses of the
wrapped references are equal, and never depends on the string content. -/
theorem symbol_eq_iff_addr_eq :
    (∀ s1 s2 : Symbol, Symbol.eq s1 s2 = true ↔ s1.addr = s2.addr) ∧
    (∀ (a1 a2 : Nat) (c1 c2 d1 d2 : String),
      Symbol.eq ⟨a1, c1⟩ ⟨a2, c2⟩ = Symbol.eq ⟨a1, d1⟩ ⟨a2, d2⟩) :=
  ⟨fun s1 s2 => by simp [Symbol.eq], fun a1 a2 c1 c2 d1 d2 => rfl⟩

/-- Witness for C3: equal addresses with different contents still compare
equal. -/
theorem symbol_eq_iff_addr_eq_witness :
    Symbol.eq ⟨0, "foo"⟩ ⟨0, "bar"⟩ = true :=
  (symbol_eq_iff_addr_eq.1 ⟨0, "foo"⟩ ⟨0, "bar"⟩).mpr rfl

/-- C4: A Symbol compares equal to a raw text value iff its referenced text
equals it by content, in both directions and for both the `str` and `&str`
comparison forms; the content path is consistent with `as_str`. -/
theorem cross_type_eq_iff_content (sym : Symbol) (t : String) :
    (Symbol.eqStr sym t = true ↔ sym.as_str = t) ∧
    (strEqSymbol t sym = true ↔ sym.as_str = t) ∧
    (Symbol.eqStrRef sym t = true ↔ sym.as_str = t) ∧
    (strRefEqSymbol t sym = true ↔ sym.as_str = t) := by
  refine ⟨?_, ?_, ?_, ?_⟩
  · simp [Symbol.eqStr, Symbol.as_str]
  · simp only [strEqSymbol, beq_iff_eq, Symbol.as_str]
    exact eq_comm
  · simp [Symbol.eqStrRef, Symbol.as_str]
  · simp only [strRefEqSymbol, beq_iff_eq, Symbol.as_str]
    exact eq_comm

/-- Witness for C4 at a concrete input. -/
theorem cross_type_eq_iff_content_witness :
    strEqSymbol "foo" ⟨0, "foo"⟩ = true :=
  ((cross_type_eq_iff_content ⟨0, "foo"⟩ "foo").2.1).mpr rfl

/-- C5: The hash of a Symbol is computed from the storage address of its
wrapped reference and never from the text content; concretely, hashing the
symbol for "zorglub" and hashing the raw text "zorglub" with the same hasher
yield different hash values. -/
theorem symbol_hash_from_addr_not_content :
    (∀ (st : HasherState) (a : Nat) (c1 c2 : String),
      Symbol.hash st ⟨a, c1⟩ = Symbol.hash st ⟨a, c2⟩) ∧
    Symbol.hash [] ((Symbol.new [] "zorglub").2) ≠ hashStr [] "zorglub" := by
  refine ⟨fun st a c1 c2 => rfl, ?_⟩
  decide

/-- C6: Each `intern` call either leaves the pool unchanged (the input content
is already present, and the returned reference points at that stored entry) or
appends exactly one new entry equal to the input; it never removes or
relocates entries, and it preserves the one-copy-per-content invariant. -/
theorem intern_insert_spec (pool : Pool) (s : String) (h : pool.Nodup) :
    (s ∈ pool → (intern pool s).1 = pool) ∧
    (s ∉ pool → (intern pool s).1 = pool ++ [s]) ∧
    (∃ rest, (intern pool s).1 = pool ++ rest) ∧
    ((intern pool s).1).Nodup ∧
    (∀ t, t ∈ (intern pool s).1 ↔ t ∈ pool ∨ t = s) ∧
    ((intern pool s).1).getD ((intern pool s).2).addr "" = s := by
  refine ⟨fun hm => intern_fst_of_mem hm, fun hm => intern_fst_of_not_mem hm,
    intern_extendsPool pool s, ?_, ?_, intern_stored pool s⟩
  · by_cases hm : s ∈ pool
    · rw [intern_fst_of_mem hm]
      exact h
    · rw [intern_fst_of_not_mem hm]
      simp [List.nodup_append, h, hm]
  · intro t
    by_cases hm : s ∈ pool
    · rw [intern_fst_of_mem hm]
      constructor
      · exact Or.inl
      · rintro (ht | rfl)
        · exact ht
        · exact hm
    · rw [intern_fst_of_not_mem hm]
      simp

/-- Witness for C6 at a concrete input. -/
theorem intern_insert_spec_witness :
    (["foo"] : Pool).Nodup ∧
    (("bar" ∈ (["foo"] : Pool) → (intern ["foo"] "bar").1 = ["foo"]) ∧
     ("bar" ∉ (["foo"] : Pool) →
       (intern ["foo"] "bar").1 = ["foo"] ++ ["bar"]) ∧
     (∃ rest, (intern ["foo"] "bar").1 = ["foo"] ++ rest) ∧
     ((intern ["foo"] "bar").1).Nodup ∧
     (∀ t, t ∈ (intern ["foo"] "bar").1 ↔ t ∈ (["foo"] : Pool) ∨ t = "bar") ∧
     ((intern ["foo"] "bar").1).getD ((intern ["foo"] "bar").2).addr ""
       = "bar") :=
  ⟨by decide, intern_insert_spec ["foo"] "bar" (by decide)⟩

/-- C7: `Symbol::new` is total — in this embedding it is a Lean function
returning a plain pair, with no error value — and the empty string behaves
like any other content: it round-trips and is deduplicated. -/
theorem new_empty_string_total (pool : Pool) :
    ((Symbol.new pool "").2).as_str = "" ∧
    Symbol.eq ((Symbol.new ((Symbol.new pool "").1) "").2)
      ((Symbol.new pool "").2) = true ∧
    (Symbol.new ((Symbol.new pool "").1) "").1 = (Symbol.new pool "").1 := by
  refine ⟨intern_content pool "", ?_, ?_⟩
  · show Symbol.eq (intern ((intern pool "").1) "").2 (intern pool "").2 = true
    rw [intern_twice_same pool ""]
    simp [Symbol.eq]
  · show (intern ((intern pool "").1) "").1 = (intern pool "").1
    rw [intern_twice_same pool ""]

/-- C8: Copying a Symbol is a shallow duplication of the wrapped reference:
the copy is identity-equal to its source, with the same storage address and
the same referenced text.  (The copy operation takes no pool argument: it
cannot touch the pool and allocates nothing.) -/
theorem copy_is_shallow (sym : Symbol) :
    Symbol.eq (Symbol.copy sym) sym = true ∧
    (Symbol.copy sym).addr = sym.addr ∧
    (Symbol.copy sym).as_str = sym.as_str := by
  refine ⟨?_, rfl, rfl⟩
  simp [Symbol.eq, Symbol.copy]

/-- C9: Displaying a freshly created symbol renders exactly the text it was
created from (Display modelled from the spec, as its implementation is not
under src/). -/
theorem display_renders_content (pool : Pool) (a : String) :
    Symbol.display ((Symbol.new pool a).2) = a :=
  intern_content pool a

/-- C10: Eq and Hash are consistent: identity-equal Symbols hash identically
under any hasher state, so Symbols are valid keys for hash-based containers. -/
theorem symbol_eq_implies_hash_eq (s1 s2 : Symbol) (st : HasherState)
    (h : Symbol.eq s1 s2 = true) : Symbol.hash st s1 = Symbol.hash st s2 := by
  simp only [Symbol.eq, beq_iff_eq] at h
  simp [Symbol.hash, hashUsize, h]

/-- Witness for C10 at a concrete input. -/
theorem symbol_eq_implies_hash_eq_witness :
    Symbol.eq ⟨1, "foo"⟩ ⟨1, "bar"⟩ = true ∧
    Symbol.hash [] ⟨1, "foo"⟩ = Symbol.hash [] ⟨1, "bar"⟩ :=
  ⟨by decide, symbol_eq_implies_hash_eq ⟨1, "foo"⟩ ⟨1, "bar"⟩ [] (by decide)⟩

end Stagiaire
